import Mathlib

/-!
# Verification of the HHL linear-system solver orchestrator

A shallow embedding of `qiskit_aqua/algorithms/single_sample/hhl/hhl.py`:
the input normalizer (`HHL.init_params`), the circuit assembler
(`HHL._construct_circuit`), the two result decoders
(`HHL._statevector_simulation`, `HHL._state_tomography`), the
post-processor (`HHL._hhl_results`) and the mode dispatcher (`HHL._run`).
Vectors are lists of complex numbers, matrices are lists of rows, and the
numpy primitives used by the source (`np.linalg.norm`, `np.angle`,
`np.sqrt`, `dot`) are embedded as the corresponding exact operations on
`ℂ` and `ℝ`.
-/

open ComplexConjugate

noncomputable section

namespace HHLSpec

/-- `np.linalg.norm v` : the Euclidean norm `sqrt (Σ |v i|²)`. -/
def npNorm (v : List ℂ) : ℝ :=
  Real.sqrt (v.map Complex.normSq).sum

/-- `v.dot(w)` for complex numpy arrays: `Σ v i * w i` (no conjugation). -/
def listDot (v w : List ℂ) : ℂ :=
  (List.zipWith (· * ·) v w).sum

/-- `v.dot(w.conj())` : `Σ v i * conj (w i)`. -/
def listDotConj (v w : List ℂ) : ℂ :=
  (List.zipWith (fun a b => a * conj b) v w).sum

/-- `matrix.dot(vec)` : matrix-vector product, row by row. -/
def matDotVec (A : List (List ℂ)) (v : List ℂ) : List ℂ :=
  A.map (fun row => listDot row v)

/-- `np.sqrt` on a complex scalar: the principal square root `z ^ (1/2)`. -/
def npSqrt (z : ℂ) : ℂ := z ^ ((1 : ℂ) / 2)

/-! ## Input normalizer (`HHL.init_params`, hhl.py lines 103-124)

The source tests `np.log2(matrix.shape[0]) % 1 != 0`, i.e. whether the
matrix side length is a power of two; if not, it embeds matrix and vector
into dimension `2 ** int(np.ceil(np.log2(n)))`. -/

/-- The source's power-of-two test on the matrix side length. -/
def isPow2 (n : Nat) : Bool := n == 2 ^ Nat.log 2 n

/-- `new_matrix = np.identity(2**next_higher); new_matrix[:n, :n] = matrix`:
the embedded matrix is the original block on `[0,n) × [0,n)` and the
identity elsewhere. -/
def padMatrix (A : List (List ℂ)) (m : Nat) : List (List ℂ) :=
  (List.range m).map (fun i => (List.range m).map (fun j =>
    if i < A.length ∧ j < A.length then (A.getD i []).getD j 0
    else if i = j then 1 else 0))

/-- `new_vector = np.ones((1, 2**next_higher)); new_vector[0, :len(v)] = v`:
the embedded vector keeps the original entries and fills the rest with 1. -/
def padVector (v : List ℂ) (m : Nat) : List ℂ :=
  (List.range m).map (fun i => if i < v.length then v.getD i 0 else 1)

/-- Errors surfaced by the orchestrator.  `dimMismatch` stands for the
`ValueError`s raised during input normalization (the explicit
"Input vector dimension does not match input matrix dimension!" raise and
numpy's broadcast `ValueError` when the vector is longer than the
embedding target), `configuration` for schema-validation failures,
`missingDependency` for an absent `algo_input`. -/
inductive HHLErr where
  | dimMismatch
  | configuration
  | missingDependency
  deriving DecidableEq

/-- The input-normalization phase of `HHL.init_params` (lines 112-124):
pad to the next power of two when the side length is not one, then check
that the vector length matches the matrix side.  The numpy assignment
`new_vector[0, :vector.shape[0]] = vector` raises a `ValueError`
(broadcast failure) when the vector is longer than `2 ** next_higher`;
that failure is `dimMismatch` as well. -/
def hhlNormalize (A : List (List ℂ)) (v : List ℂ) :
    Except HHLErr (List (List ℂ) × List ℂ) :=
  if isPow2 A.length then
    if A.length ≠ v.length then .error .dimMismatch else .ok (A, v)
  else
    let m := 2 ^ Nat.clog 2 A.length
    if m < v.length then .error .dimMismatch
    else
      let B := padMatrix A m
      let w := padVector v m
      if B.length ≠ w.length then .error .dimMismatch else .ok (B, w)

/-- The three pluggable sub-algorithms resolved by `init_params`
(lines 129-148), recorded abstractly: which roles were resolved, in
order.  Resolution happens only after normalization succeeded. -/
structure ResolvedPipeline where
  matrix : List (List ℂ)
  vector : List ℂ
  resolvedRoles : List String

/-- `HHL.init_params` after the `algo_input` check: normalize the inputs,
then resolve the eigenvalue estimator, the initial state and the
reciprocal rotator (in that order).  A normalization error short-circuits
before any sub-algorithm is resolved. -/
def hhlInitParams (A : List (List ℂ)) (v : List ℂ) :
    Except HHLErr ResolvedPipeline :=
  match hhlNormalize A v with
  | .error e => .error e
  | .ok (B, w) => .ok ⟨B, w, ["eigs", "init_state", "reciprocal"]⟩

/-- Matrix side length and vector length "after any power-of-two
embedding", as the spec phrases it: the matrix side becomes the next
power of two when it is not one; the vector length becomes that same
power of two when the embedding can hold it, and stays at its original
(over-long) value when it cannot. -/
def embeddedSide (A : List (List ℂ)) : Nat :=
  if isPow2 A.length then A.length else 2 ^ Nat.clog 2 A.length

/-- Vector length after the power-of-two embedding (see `embeddedSide`). -/
def embeddedLen (A : List (List ℂ)) (v : List ℂ) : Nat :=
  if isPow2 A.length then v.length
  else if v.length ≤ 2 ^ Nat.clog 2 A.length then 2 ^ Nat.clog 2 A.length
  else v.length

/-! ## Pipeline assembler (`HHL._construct_circuit`, hhl.py lines 152-183)

The sub-circuits returned by the three pluggable modules are opaque to
this file (they live outside of hhl.py); the assembler is embedded as the
ordered list of composition steps it performs, each step tagged with the
logical register it acts on / produces. -/

/-- The three logical registers tracked by the assembler: the primary
(`io`) register `q`, the eigenvalue (ancilla) register `a` produced by
the estimator, and the single-qubit success-flag register `s` produced by
the rotator. -/
inductive Reg where
  | io
  | eigenvalue
  | successFlag
  deriving DecidableEq

/-- One composition step of `HHL._construct_circuit`. -/
inductive HHLStep where
  /-- `qc += self._init_state.construct_circuit("circuit", q)` -/
  | initState (target : Reg)
  /-- `qc += self._eigs.construct_circuit("circuit", q)`, producing the
  eigenvalue register as a side output -/
  | eigsForward (target : Reg) (sideOutput : Reg)
  /-- `qc += self._reciprocal.construct_circuit("circuit", a)`, producing
  the success-flag register as a side output -/
  | reciprocalRot (target : Reg) (sideOutput : Reg)
  /-- `qc += self._eigs.construct_inverse("circuit")` -/
  | eigsInverse
  /-- `qc.measure(s, c)` into a fresh classical register of `bits` bits -/
  | measureFlag (target : Reg) (bits : Nat)
  deriving DecidableEq

/-- The assembled computation: the step sequence plus the register
handles recorded for later decoding (`_io_register`,
`_eigenvalue_register`, `_ancilla_register`, `_success_bit`). -/
structure AssembledComputation where
  steps : List HHLStep
  ioRegister : Reg
  eigenvalueRegister : Reg
  ancillaRegister : Reg
  successBit : Option Nat

/-- `HHL._construct_circuit`, parametrized by whether the selected
backend is a statevector backend (`is_statevector_backend`): sequential
composition of state preparation, forward estimation, reciprocal
rotation and inverse estimation, followed by a measurement of the
success flag into a one-bit classical register exactly when the backend
is not a statevector backend. -/
def construct_circuit (isStatevector : Bool) : AssembledComputation :=
  let qc : List HHLStep := []
  let qc := qc ++ [HHLStep.initState Reg.io]
  let qc := qc ++ [HHLStep.eigsForward Reg.io Reg.eigenvalue]
  let qc := qc ++ [HHLStep.reciprocalRot Reg.eigenvalue Reg.successFlag]
  let qc := qc ++ [HHLStep.eigsInverse]
  if isStatevector then
    { steps := qc, ioRegister := Reg.io, eigenvalueRegister := Reg.eigenvalue,
      ancillaRegister := Reg.successFlag, successBit := none }
  else
    { steps := qc ++ [HHLStep.measureFlag Reg.successFlag 1],
      ioRegister := Reg.io, eigenvalueRegister := Reg.eigenvalue,
      ancillaRegister := Reg.successFlag, successBit := some 1 }

/-! ## Statevector decode (`HHL._statevector_simulation`, lines 185-203)

The backend execution is embedded by its result: the final statevector
`sv`.  The decode keeps the upper half (`|anc> = 1`), dispatches on the
resolved rotator's configured name, and is modelled as `Option`-valued:
`none` is the unassigned-`vec` (`NameError`) failure reached for any
rotator name other than `"Lookup"` and `"LongDivision"`. -/

/-- Every `s`-th element of a list, starting at its head (the Python
slice `l[::s]` for `s ≥ 1`). -/
def everyNth (s : Nat) : List ℂ → List ℂ
  | [] => []
  | x :: xs => x :: everyNth s (xs.drop (s - 1))
  termination_by l => l.length
  decreasing_by simp only [List.length_cons, List.length_drop]; omega

/-- The rotator-name dispatch of `_statevector_simulation` (lines
193-200), producing the pre-normalization extracted vector:
`"Lookup"` takes the contiguous block `sv[half : half + 2 ** num_q]`,
`"LongDivision"` takes the strided sums
`sum(sv_good[i :: 2 ** num_q])` for `i < 2 ** num_q`, and any other
name leaves `vec` unassigned (`none`). -/
def rotatorExtract (name : String) (num_q : Nat) (sv : List ℂ) :
    Option (List ℂ) :=
  let half := sv.length / 2
  if name = "Lookup" then
    some ((sv.drop half).take (2 ^ num_q))
  else if name = "LongDivision" then
    let sv_good := sv.drop half
    some ((List.range (2 ^ num_q)).map
      (fun i => (everyNth (2 ^ num_q) (sv_good.drop i)).sum))
  else
    none

/-- The two result fields written by `_statevector_simulation` itself:
`_ret["probability_result"]` and the unit-normalized vector handed on to
`_hhl_results`. -/
structure SVDecode where
  probability : ℂ
  output : List ℂ

/-- `HHL._statevector_simulation` after execution: extract `vec`, record
`vec.dot(vec.conj())` as the success probability, then normalize
`vec = vec / np.linalg.norm(vec)`. -/
def statevector_simulation (name : String) (num_q : Nat) (sv : List ℂ) :
    Option SVDecode :=
  (rotatorExtract name num_q sv).map (fun vec =>
    { probability := listDotConj vec vec
      output := vec.map (fun z => z / (npNorm vec : ℂ)) })

/-! ## Tomography decode (`HHL._state_tomography`, lines 205-235)

The tomography circuits, their execution and `fit_tomography_data` live
outside hhl.py; the fitted density matrix `rho_fit` is therefore taken
as the input of the in-repository extraction step
`vec = rho_fit[:, 0] / np.sqrt(rho_fit[0, 0])`. -/

/-- The solution-vector extraction of `_state_tomography` (line 234):
the first column of the fitted density matrix, divided by the principal
square root of its `(0,0)` entry. -/
def tomographyExtract (rho : List (List ℂ)) : List ℂ :=
  rho.map (fun row => row.getD 0 0 / npSqrt ((rho.getD 0 []).getD 0 0))

/-- The pure-state density matrix `v · v†` , with entries
`v i * conj (v j)`. -/
def outerMat (v : List ℂ) : List (List ℂ) :=
  v.map (fun vi => v.map (fun vj => vi * conj vj))

/-! ## Post-processor (`HHL._hhl_results`, lines 237-247)

`np.linalg.solve(self._matrix, self._vector)` is the external exact
dense solver (spec §6, "Classical linear-algebra provider"); it is
embedded by its result `theo`, constrained by `A · theo = b` where the
round-trip theorems need it. -/

/-- The magnitude correction factor `f1 = norm(vector) / norm(matrix.dot(vec))`. -/
def rescaleFactor (A : List (List ℂ)) (b vec : List ℂ) : ℝ :=
  npNorm b / npNorm (matDotVec A vec)

/-- The phase correction
`f2 = sum(np.angle(vector * tmp_vec.conj() - 1 + 1)) / num_q`
(the `- 1 + 1` is the source's signed-zero workaround; on exact complex
numbers it is the identity and `np.angle 0 = 0 = Complex.arg 0` holds by
convention). -/
def phaseCorrection (b tmp : List ℂ) (num_q : Nat) : ℝ :=
  (List.zipWith (fun x y => Complex.arg (x * conj y - 1 + 1)) b tmp).sum / num_q

/-- The phase correction as claim C4 words it: the MEAN per-component
angle mismatch, i.e. the angle sum divided by the number of vector
components (this follows the spec's words, for comparison with the
source's `phaseCorrection`, which divides by `num_q`). -/
def phaseCorrectionSpec (b tmp : List ℂ) : ℝ :=
  (List.zipWith (fun x y => Complex.arg (x * conj y - 1 + 1)) b tmp).sum / b.length

/-- The three result fields written by `_hhl_results`. -/
structure PostProcessed where
  output : List ℂ
  fidelity : ℝ
  solution : List ℂ

/-- `HHL._hhl_results(vec)`: record `vec`, compare against the normalized
classical solution `theo`, and rescale `vec` by the magnitude factor and
the negated phase correction. -/
def hhl_results (A : List (List ℂ)) (b : List ℂ) (num_q : Nat)
    (theo vec : List ℂ) : PostProcessed :=
  let theoN := theo.map (fun z => z / (npNorm theo : ℂ))
  let tmp := matDotVec A vec
  { output := vec
    fidelity := Complex.abs (listDotConj theoN vec) ^ 2
    solution := vec.map (fun z =>
      (rescaleFactor A b vec : ℂ) * z *
        Complex.exp (-Complex.I * (phaseCorrection b tmp num_q : ℂ))) }

/-! ## Mode dispatch (`HHL.__init__` validation and `HHL._run`,
lines 76-93 and 249-275)

For the field-presence and execution-count claims the run is embedded at
the level of the result-dictionary keys (in insertion order) and the
number of `QuantumInstance.execute` calls. -/

/-- `HHL._run`: construct the circuit (no execution), branch on the
mode, then append the unconditional "general result information" keys.
Returns the `_ret` keys in insertion order, paired with the number of
backend `execute` calls performed. -/
def hhlRunKeys (mode : String) (isStatevector : Bool) : List String × Nat :=
  let decode : List String × Nat :=
    if mode = "circuit" then
      (["circuit", "regs"], 0)
    else if mode = "evaluate" then
      if isStatevector then
        (["probability_result", "output_hhl", "fidelity_hhl_to_classical",
          "solution_hhl"], 1)
      else
        (["probability_result", "output_hhl", "fidelity_hhl_to_classical",
          "solution_hhl"], 1)
    else ([], 0)
  (decode.1 ++ ["input_matrix", "input_vector", "eigenvalues_classical",
    "solution_classical", "circuit_width", "circuit_depth",
    "gate_count_total"], decode.2)

/-- The structural fields claim C1 enumerates for circuit mode: circuit
identity/name, register handles, and the width/depth/gate-count metrics. -/
def structuralFields : List String :=
  ["circuit", "regs", "circuit_width", "circuit_depth", "gate_count_total"]

/-- Modelled from the spec: `QuantumAlgorithm.validate` (called by
`HHL.__init__` via `super().validate(locals())`, and implemented outside
this repository) checks the parameters against the `CONFIGURATION`
input schema; hhl.py's schema restricts `mode` to the enum
`["circuit", "evaluate"]`, and a value outside the enum is a
`ConfigurationError` raised at construction time. -/
def validateMode (mode : String) : Except HHLErr Unit :=
  if mode = "circuit" ∨ mode = "evaluate" then .ok () else .error .configuration

/-- The solver entry point: schema validation at construction, then
`_run`.  A validation failure prevents the run entirely, so no result is
returned and no backend execution is performed. -/
def hhlSolve (mode : String) (isStatevector : Bool) :
    Except HHLErr (List String) × Nat :=
  match validateMode mode with
  | .error e => (.error e, 0)
  | .ok _ =>
      let r := hhlRunKeys mode isStatevector
      (.ok r.1, r.2)

/-! ## Helper lemmas -/

theorem getD_map_range {α : Type} (f : Nat → α) (m i : Nat) (d : α)
    (h : i < m) : ((List.range m).map f).getD i d = f i := by
  rw [List.getD_eq_getElem _ _ (by simpa using h)]
  simp

theorem getD_drop (l : List ℂ) (i j : Nat) :
    (l.drop i).getD j 0 = l.getD (i + j) 0 := by
  simp [List.getElem?_drop]

theorem getD_take_drop (l : List ℂ) (a n i : Nat) (h : i < n) :
    ((l.drop a).take n).getD i 0 = l.getD (a + i) 0 := by
  simp [List.getElem?_take, h, List.getElem?_drop]

theorem normSq_list_sum_nonneg (v : List ℂ) :
    0 ≤ (v.map Complex.normSq).sum := by
  apply List.sum_nonneg
  intro x hx
  obtain ⟨z, _, rfl⟩ := List.mem_map.mp hx
  exact Complex.normSq_nonneg z

theorem npNorm_nonneg (v : List ℂ) : 0 ≤ npNorm v :=
  Real.sqrt_nonneg _

theorem npNorm_sq (v : List ℂ) :
    npNorm v ^ 2 = (v.map Complex.normSq).sum :=
  Real.sq_sqrt (normSq_list_sum_nonneg v)

theorem listDotConj_self (v : List ℂ) :
    listDotConj v v = ((v.map Complex.normSq).sum : ℝ) := by
  induction v with
  | nil => simp [listDotConj]
  | cons x xs ih =>
      simp only [listDotConj, List.zipWith_cons_cons, List.sum_cons,
        List.map_cons] at ih ⊢
      rw [ih, Complex.mul_conj]
      push_cast
      ring

theorem list_sum_div {K : Type} [DivisionRing K] (l : List K) (c : K) :
    (l.map (fun x => x / c)).sum = l.sum / c := by
  induction l with
  | nil => simp
  | cons x xs ih => simp [ih, add_div]

theorem npNorm_map_div_ofReal (v : List ℂ) (r : ℝ) (hr : 0 ≤ r) :
    npNorm (v.map (fun z => z / (r : ℂ))) = npNorm v / r := by
  unfold npNorm
  rw [List.map_map]
  have h1 : (Complex.normSq ∘ fun z => z / (r : ℂ)) =
      fun z => Complex.normSq z / r ^ 2 := by
    funext z
    simp only [Function.comp_apply, map_div₀, Complex.normSq_ofReal]
    ring
  rw [h1]
  rw [show (fun z => Complex.normSq z / r ^ 2) =
      ((fun x => x / r ^ 2) ∘ Complex.normSq) from rfl]
  rw [← List.map_map, list_sum_div]
  rw [Real.sqrt_div (normSq_list_sum_nonneg v), Real.sqrt_sq hr]

theorem npNorm_unit_of_normalized (v : List ℂ) (h : npNorm v ≠ 0) :
    npNorm (v.map (fun z => z / (npNorm v : ℂ))) = 1 := by
  rw [npNorm_map_div_ofReal v (npNorm v) (npNorm_nonneg v)]
  exact div_self h

/-! ## Claims -/

/-- C7: The assembled computation is built by sequential composition in
exactly this order: initial-state preparation on the primary register,
forward eigenvalue estimation, reciprocal rotation on the eigenvalue
register producing the success-flag qubit, then inverse eigenvalue
estimation; and a terminal measurement of the success-flag register into
a dedicated single-bit classical register is appended if and only if the
selected backend cannot report exact final amplitudes. -/
theorem hhl_circuit_assembly_order (isStatevector : Bool) :
    (construct_circuit isStatevector).steps =
      [HHLStep.initState Reg.io,
       HHLStep.eigsForward Reg.io Reg.eigenvalue,
       HHLStep.reciprocalRot Reg.eigenvalue Reg.successFlag,
       HHLStep.eigsInverse] ++
      (if isStatevector then []
       else [HHLStep.measureFlag Reg.successFlag 1]) ∧
    (HHLStep.measureFlag Reg.successFlag 1 ∈
        (construct_circuit isStatevector).steps ↔ isStatevector = false) ∧
    ((construct_circuit isStatevector).successBit = some 1 ↔
      isStatevector = false) ∧
    (construct_circuit isStatevector).ioRegister = Reg.io ∧
    (construct_circuit isStatevector).eigenvalueRegister = Reg.eigenvalue ∧
    (construct_circuit isStatevector).ancillaRegister = Reg.successFlag := by
  cases isStatevector <;> simp [construct_circuit]

/-- C1 counterexample: in `mode="circuit"` the returned bundle also
contains the classical-solution field `"solution_classical"` (besides
`"input_matrix"`, `"input_vector"` and `"eigenvalues_classical"`), which
is not among the structural fields the claim allows, so the bundle does
not consist of structural fields only. -/
theorem hhl_circuit_mode_has_solution_field :
    "solution_classical" ∈ (hhlRunKeys "circuit" true).1 ∧
    "solution_classical" ∉ structuralFields ∧
    "eigenvalues_classical" ∈ (hhlRunKeys "circuit" true).1 ∧
    "eigenvalues_classical" ∉ structuralFields := by
  refine ⟨by simp [hhlRunKeys], by simp [structuralFields], ?_, ?_⟩ <;>
    simp [hhlRunKeys, structuralFields]

/-- C1 (amended): `mode="circuit"` performs zero backend executions and
returns a bundle holding the structural fields together with the echoed
inputs and the classical reference fields, but no probability, fidelity
or HHL-solution fields. -/
theorem hhl_circuit_mode_fields (isStatevector : Bool) :
    hhlRunKeys "circuit" isStatevector =
      (["circuit", "regs", "input_matrix", "input_vector",
        "eigenvalues_classical", "solution_classical", "circuit_width",
        "circuit_depth", "gate_count_total"], 0) ∧
    "probability_result" ∉ (hhlRunKeys "circuit" isStatevector).1 ∧
    "fidelity_hhl_to_classical" ∉ (hhlRunKeys "circuit" isStatevector).1 ∧
    "output_hhl" ∉ (hhlRunKeys "circuit" isStatevector).1 ∧
    "solution_hhl" ∉ (hhlRunKeys "circuit" isStatevector).1 ∧
    (hhlRunKeys "circuit" isStatevector).2 = 0 := by
  refine ⟨?_, ?_, ?_, ?_, ?_, ?_⟩ <;> simp [hhlRunKeys]

/-- C8: a `mode` other than `"circuit"` or `"evaluate"` fails schema
validation at construction time with a configuration error; the solver
performs no backend execution and returns no result bundle. -/
theorem hhl_invalid_mode_rejected (mode : String) (isStatevector : Bool)
    (h1 : mode ≠ "circuit") (h2 : mode ≠ "evaluate") :
    hhlSolve mode isStatevector = (.error HHLErr.configuration, 0) := by
  simp [hhlSolve, validateMode, h1, h2]

/-- C8 witness at the concrete invalid mode `"debug"`. -/
theorem hhl_invalid_mode_rejected_witness :
    ("debug" : String) ≠ "circuit" ∧
    hhlSolve "debug" true = (.error HHLErr.configuration, 0) :=
  ⟨by decide, hhl_invalid_mode_rejected "debug" true (by decide) (by decide)⟩

/-- C10: the rotator-name dispatch of the statevector decode is not
total: for any resolved rotator name other than `"Lookup"` and
`"LongDivision"` no extracted vector is assigned (the embedded decode
returns `none`, the unassigned-`vec` failure of the source), rather than
reaching a defined error branch. -/
theorem hhl_statevector_dispatch_not_total (name : String) (num_q : Nat)
    (sv : List ℂ) (h1 : name ≠ "Lookup") (h2 : name ≠ "LongDivision") :
    rotatorExtract name num_q sv = none ∧
    statevector_simulation name num_q sv = none := by
  constructor <;> simp [rotatorExtract, statevector_simulation, h1, h2]

/-- C10 witness at the concrete rotator name `"GenerateRotation"`. -/
theorem hhl_statevector_dispatch_not_total_witness :
    ("GenerateRotation" : String) ≠ "Lookup" ∧
    rotatorExtract "GenerateRotation" 1 [1, 0, 0, 0] = none ∧
    statevector_simulation "GenerateRotation" 1 [1, 0, 0, 0] = none :=
  ⟨by decide,
   (hhl_statevector_dispatch_not_total "GenerateRotation" 1 [1, 0, 0, 0]
     (by decide) (by decide)).1,
   (hhl_statevector_dispatch_not_total "GenerateRotation" 1 [1, 0, 0, 0]
     (by decide) (by decide)).2⟩

theorem isPow2_iff (n : Nat) : isPow2 n = true ↔ ∃ k, n = 2 ^ k := by
  unfold isPow2
  rw [beq_iff_eq]
  constructor
  · intro h
    exact ⟨Nat.log 2 n, h⟩
  · rintro ⟨k, rfl⟩
    rw [Nat.log_pow Nat.one_lt_two]

theorem three_ne_two_pow : ¬ ∃ k : Nat, 3 = 2 ^ k := by
  rintro ⟨k, hk⟩
  match k, hk with
  | 0, h => simp at h
  | 1, h => simp at h
  | (k + 2), h =>
      have h1 : 0 < 2 ^ k := Nat.two_pow_pos k
      have h2 : 2 ^ (k + 2) = 4 * 2 ^ k := by ring
      omega

theorem clog_two_three : Nat.clog 2 3 = 2 := by
  have h1 : Nat.clog 2 3 ≤ 2 := (Nat.le_pow_iff_clog_le Nat.one_lt_two).mp (by norm_num)
  have h2 : 1 < Nat.clog 2 3 := (Nat.pow_lt_iff_lt_clog Nat.one_lt_two).mp (by norm_num)
  omega

theorem padMatrix_entry (A : List (List ℂ)) (m i j : Nat)
    (hi : i < m) (hj : j < m) :
    ((padMatrix A m).getD i []).getD j 0 =
      if i < A.length ∧ j < A.length then (A.getD i []).getD j 0
      else if i = j then 1 else 0 := by
  unfold padMatrix
  rw [getD_map_range _ _ _ _ hi, getD_map_range _ _ _ _ hj]

theorem padVector_entry (v : List ℂ) (m i : Nat) (hi : i < m) :
    (padVector v m).getD i 0 = if i < v.length then v.getD i 0 else 1 := by
  unfold padVector
  rw [getD_map_range _ _ _ _ hi]

theorem hhlNormalize_error_iff (A : List (List ℂ)) (v : List ℂ) :
    hhlNormalize A v = .error HHLErr.dimMismatch ↔
      embeddedLen A v ≠ embeddedSide A := by
  unfold hhlNormalize embeddedLen embeddedSide
  cases hp : isPow2 A.length with
  | true =>
      simp only [if_true]
      by_cases h : A.length = v.length
      · simp [h]
      · rw [if_pos h]
        simpa using Ne.symm h
  | false =>
      simp only [Bool.false_eq_true, if_false]
      by_cases h : v.length ≤ 2 ^ Nat.clog 2 A.length
      · rw [if_neg (by omega), if_neg (by simp [padMatrix, padVector]), if_pos h]
        simp
      · rw [if_pos (by omega), if_neg h]
        simpa using by omega

/-- C9: input normalization fails with the dimension-mismatch error
exactly when the vector length differs from the matrix side length after
any power-of-two embedding, and a normalization error short-circuits
`init_params` before any sub-algorithm is resolved. -/
theorem hhl_dimension_check (A : List (List ℂ)) (v : List ℂ) :
    (hhlInitParams A v = .error HHLErr.dimMismatch ↔
      embeddedLen A v ≠ embeddedSide A) ∧
    (∀ e, hhlNormalize A v = .error e → hhlInitParams A v = .error e) := by
  constructor
  · rw [← hhlNormalize_error_iff]
    unfold hhlInitParams
    cases hN : hhlNormalize A v with
    | error e => cases e <;> simp
    | ok p => simp
  · intro e he
    simp [hhlInitParams, he]

/-- C9 witness: a 2×2 matrix (power-of-two side, no embedding) with a
length-3 vector fails with the dimension-mismatch error. -/
theorem hhl_dimension_check_witness :
    hhlInitParams ([[1, 0], [0, 1]] : List (List ℂ)) [1, 0, 0] =
      .error HHLErr.dimMismatch := by
  have hp : isPow2 2 = true := (isPow2_iff 2).mpr ⟨1, rfl⟩
  exact (hhl_dimension_check [[1, 0], [0, 1]] [1, 0, 0]).1.mpr
    (by simp [embeddedLen, embeddedSide, hp])

/-- C2: for a square matrix whose side `n` is not a power of two, the
normalizer embeds into dimension `m = 2^⌈log2 n⌉`: the embedded matrix
agrees with the original on the `[0,n) × [0,n)` block and is the
identity on every entry with a coordinate in `[n, m)`, and the embedded
vector keeps the original entries and is 1 on `[n, m)`. -/
theorem hhl_normalizer_pads_to_power_of_two (A : List (List ℂ))
    (v : List ℂ) (m : Nat) (hm : m = 2 ^ Nat.clog 2 A.length)
    (hpos : 0 < A.length) (hv : v.length = A.length)
    (hnp : ¬ ∃ k, A.length = 2 ^ k) :
    hhlNormalize A v = .ok (padMatrix A m, padVector v m) ∧
    A.length < m ∧
    (padMatrix A m).length = m ∧
    (padVector v m).length = m ∧
    (∀ i, i < m → ((padMatrix A m).getD i []).length = m) ∧
    (∀ i j, i < A.length → j < A.length →
      ((padMatrix A m).getD i []).getD j 0 = (A.getD i []).getD j 0) ∧
    (∀ i j, i < m → j < m → (A.length ≤ i ∨ A.length ≤ j) →
      ((padMatrix A m).getD i []).getD j 0 = if i = j then 1 else 0) ∧
    (∀ i, i < v.length → (padVector v m).getD i 0 = v.getD i 0) ∧
    (∀ i, v.length ≤ i → i < m → (padVector v m).getD i 0 = 1) := by
  have hp2 : isPow2 A.length = false := by
    rw [← Bool.not_eq_true, isPow2_iff]
    exact hnp
  have hle : A.length ≤ m := hm ▸ Nat.le_pow_clog Nat.one_lt_two _
  have hlt : A.length < m :=
    lt_of_le_of_ne hle (fun h => hnp ⟨Nat.clog 2 A.length, hm ▸ h⟩)
  refine ⟨?_, hlt, by simp [padMatrix], by simp [padVector], ?_, ?_, ?_, ?_, ?_⟩
  · simp only [hhlNormalize, hp2, Bool.false_eq_true, if_false, ← hm]
    rw [if_neg (by omega), if_neg (by simp [padMatrix, padVector])]
  · intro i hi
    unfold padMatrix
    rw [getD_map_range _ _ _ _ hi]
    simp
  · intro i j hi hj
    rw [padMatrix_entry A m i j (by omega) (by omega), if_pos ⟨hi, hj⟩]
  · intro i j hi hj hout
    rw [padMatrix_entry A m i j hi hj, if_neg (by omega)]
  · intro i hi
    rw [padVector_entry v m i (by omega), if_pos hi]
  · intro i hi him
    rw [padVector_entry v m i him, if_neg (by omega)]

/-- C2 witness: the 3×3 identity (side 3, not a power of two) with the
vector `[5, 6, 7]` is embedded into dimension 4. -/
theorem hhl_normalizer_pads_witness :
    (0 < ([[1, 0, 0], [0, 1, 0], [0, 0, 1]] : List (List ℂ)).length) ∧
    hhlNormalize ([[1, 0, 0], [0, 1, 0], [0, 0, 1]] : List (List ℂ)) [5, 6, 7] =
      .ok (padMatrix [[1, 0, 0], [0, 1, 0], [0, 0, 1]] 4,
           padVector [5, 6, 7] 4) :=
  ⟨by simp,
   (hhl_normalizer_pads_to_power_of_two [[1, 0, 0], [0, 1, 0], [0, 0, 1]]
      [5, 6, 7] 4
      (by rw [show ([[1, 0, 0], [0, 1, 0], [0, 0, 1]] : List (List ℂ)).length = 3
            from rfl, clog_two_three]; norm_num)
      (by simp) (by simp) (by simpa using three_ne_two_pow)).1⟩

theorem everyNth_cons (s : Nat) (x : ℂ) (xs : List ℂ) :
    everyNth s (x :: xs) = x :: everyNth s (xs.drop (s - 1)) := by
  simp [everyNth]

theorem le_mul_of_pos_nat (k s : Nat) (hs : 0 < s) : k ≤ k * s := by
  calc k = k * 1 := (Nat.mul_one k).symm
  _ ≤ k * s := Nat.mul_le_mul_left k hs

theorem everyNth_sum (s : Nat) (hs : 0 < s) :
    ∀ (n : Nat) (l : List ℂ), l.length ≤ n →
      (everyNth s l).sum = ∑ k ∈ Finset.range l.length, l.getD (k * s) 0 := by
  intro n
  induction n with
  | zero =>
      intro l hl
      rw [List.length_eq_zero.mp (Nat.le_zero.mp hl)]
      simp [everyNth]
  | succ n ih =>
      intro l hl
      cases l with
      | nil => simp [everyNth]
      | cons x xs =>
          have hd : (xs.drop (s - 1)).length ≤ n := by
            simp only [List.length_drop]
            simp only [List.length_cons] at hl
            omega
          rw [everyNth_cons, List.sum_cons, ih _ hd]
          have hterm : ∀ k, (xs.drop (s - 1)).getD (k * s) 0 =
              (x :: xs).getD ((k + 1) * s) 0 := by
            intro k
            rw [getD_drop]
            have h2 : (k + 1) * s = k * s + s := by ring
            have h3 : (k + 1) * s = (s - 1 + k * s) + 1 := by omega
            rw [h3, List.getD_cons_succ]
          rw [Finset.sum_congr rfl (fun k _ => hterm k)]
          have hL : (xs.drop (s - 1)).length = xs.length - (s - 1) := by
            simp
          rw [hL]
          have hzero : ∀ k ∈ Finset.range xs.length,
              k ∉ Finset.range (xs.length - (s - 1)) →
              (x :: xs).getD ((k + 1) * s) 0 = 0 := by
            intro k hk hnk
            simp only [Finset.mem_range] at hk hnk
            apply List.getD_eq_default
            have h4 : k ≤ k * s := le_mul_of_pos_nat k s hs
            have h2 : (k + 1) * s = k * s + s := by ring
            simp only [List.length_cons]
            omega
          have hsub : ∑ k ∈ Finset.range (xs.length - (s - 1)),
                (x :: xs).getD ((k + 1) * s) 0 =
              ∑ k ∈ Finset.range xs.length, (x :: xs).getD ((k + 1) * s) 0 :=
            Finset.sum_subset (Finset.range_subset.mpr (by omega)) hzero
          rw [hsub, List.length_cons, Finset.sum_range_succ']
          simp only [Nat.zero_mul, List.getD_cons_zero]
          ring

theorem everyNth_drop_sum (s : Nat) (hs : 0 < s) (l : List ℂ) (i : Nat) :
    (everyNth s (l.drop i)).sum =
      ∑ k ∈ Finset.range l.length, l.getD (i + k * s) 0 := by
  rw [everyNth_sum s hs (l.drop i).length (l.drop i) le_rfl]
  rw [Finset.sum_congr rfl (fun k _ => getD_drop l i (k * s))]
  apply Finset.sum_subset
    (Finset.range_subset.mpr (by simp only [List.length_drop]; omega))
  intro k hk hnk
  simp only [Finset.mem_range, List.length_drop] at hk hnk
  apply List.getD_eq_default
  have h4 : k ≤ k * s := le_mul_of_pos_nat k s hs
  omega

/-- C3: in the statevector decode only the upper half of the final
amplitude vector is used; with a `"Lookup"` rotator the extracted vector
is the contiguous block of length `2^num_q` at the start of that half,
with a `"LongDivision"` rotator entry `i` is the sum of every
`2^num_q`-th amplitude of that half starting at offset `i`; the squared
norm of the pre-normalization vector is recorded as the success
probability, and the vector is then unit-normalized. -/
theorem hhl_statevector_decode (num_q : Nat) (sv : List ℂ)
    (hlen : sv.length / 2 + 2 ^ num_q ≤ sv.length) :
    ∃ vL vD,
      rotatorExtract "Lookup" num_q sv = some vL ∧
      rotatorExtract "LongDivision" num_q sv = some vD ∧
      vL.length = 2 ^ num_q ∧
      (∀ i, i < 2 ^ num_q → vL.getD i 0 = sv.getD (sv.length / 2 + i) 0) ∧
      vD.length = 2 ^ num_q ∧
      (∀ i, i < 2 ^ num_q → vD.getD i 0 =
        ∑ k ∈ Finset.range sv.length,
          sv.getD (sv.length / 2 + i + k * 2 ^ num_q) 0) ∧
      (∀ name vec, rotatorExtract name num_q sv = some vec →
        statevector_simulation name num_q sv =
          some ⟨((npNorm vec ^ 2 : ℝ) : ℂ),
                vec.map (fun z => z / (npNorm vec : ℂ))⟩ ∧
        (npNorm vec ≠ 0 →
          npNorm (vec.map (fun z => z / (npNorm vec : ℂ))) = 1)) := by
  refine ⟨(sv.drop (sv.length / 2)).take (2 ^ num_q),
    (List.range (2 ^ num_q)).map
      (fun i => (everyNth (2 ^ num_q) ((sv.drop (sv.length / 2)).drop i)).sum),
    by simp [rotatorExtract], by simp [rotatorExtract], ?_, ?_, by simp, ?_, ?_⟩
  · simp only [List.length_take, List.length_drop]
    omega
  · intro i hi
    exact getD_take_drop sv (sv.length / 2) (2 ^ num_q) i hi
  · intro i hi
    rw [getD_map_range _ _ _ _ hi, List.drop_drop,
      everyNth_drop_sum _ (Nat.two_pow_pos num_q) sv (sv.length / 2 + i)]
  · intro name vec hvec
    constructor
    · unfold statevector_simulation
      rw [hvec, Option.map_some']
      exact congrArg some (by rw [show listDotConj vec vec =
        ((npNorm vec ^ 2 : ℝ) : ℂ) from by rw [listDotConj_self, npNorm_sq]])
    · intro h
      exact npNorm_unit_of_normalized vec h

/-- C3 witness at `num_q = 0`, `sv = [0, 1]`: the Lookup decode extracts
`[1]`, records probability 1 and returns the normalized vector `[1]`. -/
theorem hhl_statevector_decode_witness :
    ((2 : Nat) / 2 + 2 ^ 0 ≤ 2) ∧
    statevector_simulation "Lookup" 0 [0, 1] = some ⟨1, [1]⟩ := by
  refine ⟨by norm_num, ?_⟩
  obtain ⟨vL, vD, h1, h2, h3, h4, h5, h6, h7⟩ :=
    hhl_statevector_decode 0 [0, 1] (by norm_num)
  have hcalc : rotatorExtract "Lookup" 0 ([0, 1] : List ℂ) = some [1] := by
    simp [rotatorExtract]
  have hvL : vL = [1] := by
    rw [hcalc] at h1
    exact (Option.some_inj.mp h1).symm
  have h8 := (h7 "Lookup" vL h1).1
  rw [hvL] at h8
  rw [h8]
  have hn : npNorm [1] = 1 := by
    simp [npNorm, Real.sqrt_one]
  rw [hn]
  norm_num

theorem getD_map_lt (f : ℂ → ℂ) (v : List ℂ) (i : Nat) (h : i < v.length) :
    (v.map f).getD i 0 = f (v.getD i 0) := by
  rw [List.getD_eq_getElem _ _ (by simpa using h), List.getElem_map,
    List.getD_eq_getElem _ _ h]

theorem sqrt_four : Real.sqrt 4 = 2 := by
  rw [show (4 : ℝ) = 2 ^ 2 by norm_num]
  exact Real.sqrt_sq (by norm_num)

/-- C4 counterexample: for the 4×4 identity matrix, `b = [i,i,i,i]`,
`vec = [1,1,1,1]` and `num_q = 2` (a 4-dimensional system on 2 qubits),
the source's phase correction is the angle sum divided by the QUBIT
count (`2π/2 = π`), not the mean per-component mismatch (`2π/4 = π/2`);
the produced solution entry is `-1` while the claimed formula gives
`-i`. -/
theorem hhl_phase_mean_counterexample :
    phaseCorrection [Complex.I, Complex.I, Complex.I, Complex.I]
      (matDotVec [[1, 0, 0, 0], [0, 1, 0, 0], [0, 0, 1, 0], [0, 0, 0, 1]]
        [1, 1, 1, 1]) 2 = Real.pi ∧
    phaseCorrectionSpec [Complex.I, Complex.I, Complex.I, Complex.I]
      (matDotVec [[1, 0, 0, 0], [0, 1, 0, 0], [0, 0, 1, 0], [0, 0, 0, 1]]
        [1, 1, 1, 1]) = Real.pi / 2 ∧
    (hhl_results [[1, 0, 0, 0], [0, 1, 0, 0], [0, 0, 1, 0], [0, 0, 0, 1]]
      [Complex.I, Complex.I, Complex.I, Complex.I] 2
      [Complex.I, Complex.I, Complex.I, Complex.I]
      [1, 1, 1, 1]).solution.getD 0 0 = -1 ∧
    (rescaleFactor [[1, 0, 0, 0], [0, 1, 0, 0], [0, 0, 1, 0], [0, 0, 0, 1]]
        [Complex.I, Complex.I, Complex.I, Complex.I] [1, 1, 1, 1] : ℂ) *
      (([1, 1, 1, 1] : List ℂ).getD 0 0) *
      Complex.exp (-Complex.I *
        (phaseCorrectionSpec [Complex.I, Complex.I, Complex.I, Complex.I]
          (matDotVec [[1, 0, 0, 0], [0, 1, 0, 0], [0, 0, 1, 0], [0, 0, 0, 1]]
            [1, 1, 1, 1]) : ℂ)) = -Complex.I ∧
    (-1 : ℂ) ≠ -Complex.I := by
  have htmp : matDotVec [[1, 0, 0, 0], [0, 1, 0, 0], [0, 0, 1, 0], [0, 0, 0, 1]]
      ([1, 1, 1, 1] : List ℂ) = [1, 1, 1, 1] := by
    simp [matDotVec, listDot]
  have hIconj : Complex.I * conj (1 : ℂ) - 1 + 1 = Complex.I := by
    simp
  have hang : (List.zipWith (fun x y => Complex.arg (x * conj y - 1 + 1))
      [Complex.I, Complex.I, Complex.I, Complex.I]
      ([1, 1, 1, 1] : List ℂ)).sum = 2 * Real.pi := by
    simp only [List.zipWith_cons_cons, List.zipWith_nil_right, List.sum_cons,
      List.sum_nil, hIconj, Complex.arg_I]
    ring
  have hf2 : phaseCorrection [Complex.I, Complex.I, Complex.I, Complex.I]
      (matDotVec [[1, 0, 0, 0], [0, 1, 0, 0], [0, 0, 1, 0], [0, 0, 0, 1]]
        [1, 1, 1, 1]) 2 = Real.pi := by
    rw [phaseCorrection, htmp, hang]
    norm_num
  have hfspec : phaseCorrectionSpec [Complex.I, Complex.I, Complex.I, Complex.I]
      (matDotVec [[1, 0, 0, 0], [0, 1, 0, 0], [0, 0, 1, 0], [0, 0, 0, 1]]
        [1, 1, 1, 1]) = Real.pi / 2 := by
    rw [phaseCorrectionSpec, htmp, hang]
    norm_num
    ring
  have hnb : npNorm [Complex.I, Complex.I, Complex.I, Complex.I] = 2 := by
    simp only [npNorm, List.map_cons, List.map_nil, Complex.normSq_I,
      List.sum_cons, List.sum_nil]
    rw [show (1 : ℝ) + (1 + (1 + (1 + 0))) = 4 by norm_num, sqrt_four]
  have hnt : npNorm ([1, 1, 1, 1] : List ℂ) = 2 := by
    simp only [npNorm, List.map_cons, List.map_nil, map_one,
      List.sum_cons, List.sum_nil]
    rw [show (1 : ℝ) + (1 + (1 + (1 + 0))) = 4 by norm_num, sqrt_four]
  have hf1 : rescaleFactor [[1, 0, 0, 0], [0, 1, 0, 0], [0, 0, 1, 0], [0, 0, 0, 1]]
      [Complex.I, Complex.I, Complex.I, Complex.I] [1, 1, 1, 1] = 1 := by
    rw [rescaleFactor, htmp, hnb, hnt]
    norm_num
  have hexp1 : Complex.exp (-Complex.I * (Real.pi : ℂ)) = -1 := by
    rw [show -Complex.I * (Real.pi : ℂ) = -((Real.pi : ℂ) * Complex.I) by ring,
      Complex.exp_neg, Complex.exp_pi_mul_I]
    norm_num
  have hexp2 : Complex.exp (-Complex.I * ((Real.pi / 2 : ℝ) : ℂ)) =
      -Complex.I := by
    rw [show -Complex.I * ((Real.pi / 2 : ℝ) : ℂ) =
        -(((Real.pi / 2 : ℝ) : ℂ) * Complex.I) by ring,
      Complex.exp_neg, Complex.exp_mul_I]
    rw [← Complex.ofReal_cos, ← Complex.ofReal_sin, Real.cos_pi_div_two,
      Real.sin_pi_div_two]
    simp [Complex.inv_I]
  refine ⟨hf2, hfspec, ?_, ?_, ?_⟩
  · show (([1, 1, 1, 1] : List ℂ).map (fun z =>
      (rescaleFactor _ _ _ : ℂ) * z *
        Complex.exp (-Complex.I * (phaseCorrection _ _ _ : ℂ)))).getD 0 0 = -1
    rw [getD_map_lt _ _ 0 (by simp), hf1, hf2, hexp1]
    simp
  · rw [hf1, hfspec, hexp2]
    simp
  · intro h
    have := congrArg Complex.re h
    simp at this

/-- C4 (amended): the post-processor's rescaling computes the magnitude
factor as `‖b‖ / ‖A·vec‖`, the phase correction as the SUM of the
per-component angle mismatches divided by the primary-register qubit
count `num_q` (not the mean over the vector components), with a
zero-angle convention when both terms are exactly zero; the solution is
`vec` scaled by the magnitude factor and rotated by the negative of the
phase correction, so each solution entry has magnitude
`(‖b‖ / ‖A·vec‖) * |vec i|`. -/
theorem hhl_rescaling_formula (A : List (List ℂ)) (b vec theo : List ℂ)
    (num_q : Nat) :
    rescaleFactor A b vec = npNorm b / npNorm (matDotVec A vec) ∧
    phaseCorrection b (matDotVec A vec) num_q =
      (List.zipWith (fun x y => Complex.arg (x * conj y - 1 + 1)) b
        (matDotVec A vec)).sum / num_q ∧
    (∀ x y : ℂ, x = 0 → y = 0 → Complex.arg (x * conj y - 1 + 1) = 0) ∧
    (∀ i, i < vec.length →
      (hhl_results A b num_q theo vec).solution.getD i 0 =
        (rescaleFactor A b vec : ℂ) * vec.getD i 0 *
          Complex.exp (-Complex.I *
            (phaseCorrection b (matDotVec A vec) num_q : ℂ))) ∧
    (∀ i, i < vec.length →
      Complex.abs ((hhl_results A b num_q theo vec).solution.getD i 0) =
        (npNorm b / npNorm (matDotVec A vec)) *
          Complex.abs (vec.getD i 0)) := by
  have hsol : ∀ i, i < vec.length →
      (hhl_results A b num_q theo vec).solution.getD i 0 =
        (rescaleFactor A b vec : ℂ) * vec.getD i 0 *
          Complex.exp (-Complex.I *
            (phaseCorrection b (matDotVec A vec) num_q : ℂ)) := by
    intro i hi
    show ((vec.map (fun z => (rescaleFactor A b vec : ℂ) * z *
      Complex.exp (-Complex.I *
        (phaseCorrection b (matDotVec A vec) num_q : ℂ)))).getD i 0) = _
    rw [getD_map_lt _ _ i hi]
  refine ⟨rfl, rfl, ?_, hsol, ?_⟩
  · intro x y hx hy
    rw [hx, hy]
    simp [Complex.arg_zero]
  · intro i hi
    rw [hsol i hi]
    rw [map_mul, map_mul]
    rw [show -Complex.I * (phaseCorrection b (matDotVec A vec) num_q : ℂ) =
      ((-(phaseCorrection b (matDotVec A vec) num_q) : ℝ) : ℂ) * Complex.I by
        push_cast
        ring]
    rw [Complex.abs_exp_ofReal_mul_I, mul_one, Complex.abs_ofReal]
    rw [show rescaleFactor A b vec = npNorm b / npNorm (matDotVec A vec)
      from rfl]
    rw [abs_of_nonneg (div_nonneg (npNorm_nonneg b)
      (npNorm_nonneg (matDotVec A vec)))]

/-- C4 witness: the concrete 1×1 system `A = [[1]]`, `b = [1]`,
`vec = [1]`, `num_q = 1`, at entry 0. -/
theorem hhl_rescaling_formula_witness :
    (0 < ([1] : List ℂ).length) ∧
    (hhl_results [[1]] [1] 1 [1] [1]).solution.getD 0 0 =
      (rescaleFactor [[1]] [1] [1] : ℂ) * (([1] : List ℂ).getD 0 0) *
        Complex.exp (-Complex.I *
          (phaseCorrection [1] (matDotVec [[1]] [1]) 1 : ℂ)) :=
  ⟨by simp,
   (hhl_rescaling_formula [[1]] [1] [1] [1] 1).2.2.2.1 0 (by simp)⟩

theorem listDot_map_div (row v : List ℂ) (c : ℂ) :
    listDot row (v.map (fun z => z / c)) = listDot row v / c := by
  unfold listDot
  rw [List.zipWith_map_right]
  rw [show (fun (a b : ℂ) => a * (b / c)) = fun (a b : ℂ) => (a * b) / c
    from by funext a b; ring]
  rw [← List.map_zipWith (fun x => x / c) (· * ·) row v]
  rw [list_sum_div]

theorem matDotVec_map_div (A : List (List ℂ)) (v : List ℂ) (c : ℂ) :
    matDotVec A (v.map (fun z => z / c)) =
      (matDotVec A v).map (fun z => z / c) := by
  unfold matDotVec
  rw [List.map_map]
  congr 1
  funext row
  exact listDot_map_div row v c

/-- C5 counterexample: for `A = [[2,0],[0,2]]`, `b = [2,0]` the
unnormalized classical solution is `theo = [1,0]`, which is already unit
normalized, so `vec = [1,0]`; the magnitude factor is
`‖b‖/‖A·vec‖ = 2/2 = 1 = ‖theo‖`, which differs from the claimed
`‖b‖ = 2`. -/
theorem hhl_rescale_factor_counterexample :
    matDotVec [[2, 0], [0, 2]] ([1, 0] : List ℂ) = [2, 0] ∧
    npNorm ([1, 0] : List ℂ) = 1 ∧
    ([1, 0] : List ℂ).map (fun z => z / (npNorm ([1, 0] : List ℂ) : ℂ)) =
      [1, 0] ∧
    rescaleFactor [[2, 0], [0, 2]] [2, 0] [1, 0] = 1 ∧
    npNorm ([2, 0] : List ℂ) = 2 ∧
    (1 : ℝ) ≠ 2 := by
  have h1 : matDotVec [[2, 0], [0, 2]] ([1, 0] : List ℂ) = [2, 0] := by
    simp [matDotVec, listDot]
  have h2 : npNorm ([1, 0] : List ℂ) = 1 := by
    simp [npNorm, Real.sqrt_one]
  have h3 : npNorm ([2, 0] : List ℂ) = 2 := by
    simp only [npNorm, List.map_cons, List.map_nil, List.sum_cons,
      List.sum_nil]
    rw [show Complex.normSq 2 + (Complex.normSq 0 + 0) = 4 from by
      simp [Complex.normSq_apply]; norm_num]
    exact sqrt_four
  refine ⟨h1, h2, ?_, ?_, h3, by norm_num⟩
  · rw [h2]
    push_cast
    simp
  · rw [rescaleFactor, h1, h3]
    norm_num

/-- C5 (amended): if the extracted vector already equals the
unit-normalized classical solution, then the fidelity is exactly 1, the
phase correction is 0, the post-processed solution equals the
(unnormalized) classical solution, and the magnitude factor equals the
norm of the unnormalized classical solution `theo` (not the norm of the
input vector `b`, to which it is equal only in special cases). -/
theorem hhl_postprocess_roundtrip (A : List (List ℂ)) (b theo vec : List ℂ)
    (num_q : Nat) (hsolve : matDotVec A theo = b) (hb : npNorm b ≠ 0)
    (hth : npNorm theo ≠ 0)
    (hvec : vec = theo.map (fun z => z / (npNorm theo : ℂ))) :
    (hhl_results A b num_q theo vec).fidelity = 1 ∧
    rescaleFactor A b vec = npNorm theo ∧
    phaseCorrection b (matDotVec A vec) num_q = 0 ∧
    (hhl_results A b num_q theo vec).solution = theo := by
  have hr0 : 0 < npNorm theo :=
    lt_of_le_of_ne (npNorm_nonneg theo) (Ne.symm hth)
  have htmp : matDotVec A vec = b.map (fun z => z / (npNorm theo : ℂ)) := by
    rw [hvec, matDotVec_map_div, hsolve]
  have hnormtmp : npNorm (matDotVec A vec) = npNorm b / npNorm theo := by
    rw [htmp, npNorm_map_div_ofReal b (npNorm theo) (npNorm_nonneg theo)]
  have hf1 : rescaleFactor A b vec = npNorm theo := by
    rw [rescaleFactor, hnormtmp]
    field_simp
  have hnvec : npNorm vec = 1 := by
    rw [hvec, npNorm_map_div_ofReal theo (npNorm theo) (npNorm_nonneg theo),
      div_self hth]
  have hangles : ∀ t ∈ List.zipWith
      (fun x y => Complex.arg (x * conj y - 1 + 1)) b (matDotVec A vec),
      t = 0 := by
    rw [htmp, List.zipWith_map_right, List.zipWith_same]
    intro t ht
    obtain ⟨x, _, rfl⟩ := List.mem_map.mp ht
    have hzc : x * conj (x / (npNorm theo : ℂ)) - 1 + 1 =
        ((Complex.normSq x / npNorm theo : ℝ) : ℂ) := by
      rw [map_div₀, Complex.conj_ofReal]
      rw [show x * (conj x / ((npNorm theo : ℝ) : ℂ)) - 1 + 1 =
        x * conj x / ((npNorm theo : ℝ) : ℂ) from by ring]
      rw [Complex.mul_conj]
      push_cast
      ring
    rw [hzc]
    exact Complex.arg_ofReal_of_nonneg
      (div_nonneg (Complex.normSq_nonneg x) hr0.le)
  have hf2 : phaseCorrection b (matDotVec A vec) num_q = 0 := by
    rw [phaseCorrection, List.sum_eq_zero hangles, zero_div]
  have hfid : (hhl_results A b num_q theo vec).fidelity = 1 := by
    show Complex.abs (listDotConj
      (theo.map (fun z => z / (npNorm theo : ℂ))) vec) ^ 2 = 1
    rw [← hvec, listDotConj_self, ← npNorm_sq, hnvec]
    norm_num
  refine ⟨hfid, hf1, hf2, ?_⟩
  show vec.map (fun z => (rescaleFactor A b vec : ℂ) * z *
    Complex.exp (-Complex.I *
      (phaseCorrection b (matDotVec A vec) num_q : ℂ))) = theo
  rw [hf1, hf2, hvec, List.map_map]
  have hrc : ((npNorm theo : ℝ) : ℂ) ≠ 0 := Complex.ofReal_ne_zero.mpr hth
  have hid : ((fun z => ((npNorm theo : ℝ) : ℂ) * z *
      Complex.exp (-Complex.I * (((0 : ℝ)) : ℂ))) ∘
      (fun z => z / ((npNorm theo : ℝ) : ℂ))) = id := by
    funext z
    simp only [Function.comp_apply, Complex.ofReal_zero, mul_zero,
      Complex.exp_zero, mul_one, id_eq]
    rw [mul_comm, div_mul_cancel₀ z hrc]
  rw [hid, List.map_id]

/-- C5 witness at the concrete system `A = I₂`, `b = [1,0]`,
`theo = vec = [1,0]`. -/
theorem hhl_postprocess_roundtrip_witness :
    matDotVec [[1, 0], [0, 1]] ([1, 0] : List ℂ) = [1, 0] ∧
    (hhl_results [[1, 0], [0, 1]] [1, 0] 1 [1, 0] [1, 0]).fidelity = 1 ∧
    (hhl_results [[1, 0], [0, 1]] [1, 0] 1 [1, 0] [1, 0]).solution =
      [1, 0] := by
  have hA : matDotVec [[1, 0], [0, 1]] ([1, 0] : List ℂ) = [1, 0] := by
    simp [matDotVec, listDot]
  have hn : npNorm ([1, 0] : List ℂ) = 1 := by
    simp [npNorm, Real.sqrt_one]
  have hv : ([1, 0] : List ℂ) =
      ([1, 0] : List ℂ).map (fun z => z / (npNorm ([1, 0] : List ℂ) : ℂ)) := by
    rw [hn]
    push_cast
    simp
  have h := hhl_postprocess_roundtrip [[1, 0], [0, 1]] [1, 0] [1, 0] [1, 0] 1
    hA (by rw [hn]; norm_num) (by rw [hn]; norm_num) hv
  exact ⟨hA, h.1, h.2.2.2⟩

theorem npSqrt_ofReal (r : ℝ) (hr : 0 ≤ r) :
    npSqrt ((r : ℝ) : ℂ) = ((Real.sqrt r : ℝ) : ℂ) := by
  unfold npSqrt
  rw [show ((1 : ℂ) / 2) = (((1 / 2 : ℝ)) : ℂ) by norm_num]
  rw [← Complex.ofReal_cpow hr]
  rw [Real.sqrt_eq_rpow]

/-- C6 counterexample: for the fitted density `rho = [[1,0],[0,2]]`
(positive semidefinite, diagonal), the extraction
`rho[:,0]/sqrt(rho[0,0])` returns `[1,0]`, an eigenvector for the
eigenvalue 1; but the leading eigenvalue is 2 (`[0,1]` is one of its
eigenvectors) and `[1,0]` is not an eigenvector for it, so the extracted
vector is not the leading eigenvector of the reconstruction. -/
theorem hhl_tomography_column_counterexample :
    tomographyExtract [[1, 0], [0, 2]] = [1, 0] ∧
    matDotVec [[1, 0], [0, 2]] ([1, 0] : List ℂ) = [1, 0] ∧
    matDotVec [[1, 0], [0, 2]] ([0, 1] : List ℂ) = [2 * 0, 2 * 1] ∧
    matDotVec [[1, 0], [0, 2]] ([1, 0] : List ℂ) ≠ [2 * 1, 2 * 0] ∧
    (1 : ℝ) < 2 := by
  have hone : npSqrt 1 = 1 := Complex.one_cpow _
  have h1 : matDotVec [[1, 0], [0, 2]] ([1, 0] : List ℂ) = [1, 0] := by
    simp [matDotVec, listDot]
  refine ⟨?_, h1, ?_, ?_, by norm_num⟩
  · simp [tomographyExtract, hone]
  · simp [matDotVec, listDot]
  · rw [h1]
    intro hco
    injection hco with hhead _
    exact (by norm_num : (1 : ℂ) ≠ 2 * 1) hhead

/-- C6 (amended): the extracted tomography vector is the first column of
the fitted density divided by the square root of its `(0,0)` entry; when
the fitted density is the pure state `v·v†` with `v 0 ≠ 0` (the rank-one
case, where the state vector is the leading eigenvector), this equals
`v` up to a global phase of modulus 1. -/
theorem hhl_tomography_extract_pure (v : List ℂ) (h0 : v.getD 0 0 ≠ 0) :
    tomographyExtract (outerMat v) =
      v.map (fun z => z *
        (conj (v.getD 0 0) / (Complex.abs (v.getD 0 0) : ℂ))) ∧
    Complex.abs (conj (v.getD 0 0) / (Complex.abs (v.getD 0 0) : ℂ)) =
      1 := by
  obtain ⟨x, vs, rfl⟩ : ∃ x vs, v = x :: vs := by
    cases v with
    | nil => simp at h0
    | cons x vs => exact ⟨x, vs, rfl⟩
  simp only [List.getD_cons_zero] at h0 ⊢
  have hdiag : ((outerMat (x :: vs)).getD 0 []).getD 0 0 =
      ((Complex.normSq x : ℝ) : ℂ) := by
    simp [outerMat, Complex.mul_conj]
  have hroot : npSqrt (((outerMat (x :: vs)).getD 0 []).getD 0 0) =
      ((Complex.abs x : ℝ) : ℂ) := by
    rw [hdiag, npSqrt_ofReal _ (Complex.normSq_nonneg x), Complex.abs_apply]
  constructor
  · unfold tomographyExtract
    rw [hroot]
    unfold outerMat
    rw [List.map_map]
    have hfun : ((fun row => row.getD 0 0 / ((Complex.abs x : ℝ) : ℂ)) ∘
        (fun vi => (x :: vs).map (fun vj => vi * conj vj))) =
        fun z => z * (conj x / ((Complex.abs x : ℝ) : ℂ)) := by
      funext vi
      simp only [Function.comp_apply, List.map_cons, List.getD_cons_zero]
      ring
    rw [hfun]
  · rw [map_div₀, Complex.abs_conj, Complex.abs_ofReal,
      abs_of_nonneg (Complex.abs.nonneg x)]
    exact div_self (Complex.abs.ne_zero h0)

/-- C6 witness: the pure state `v = [1, i]`. -/
theorem hhl_tomography_extract_pure_witness :
    (([1, Complex.I] : List ℂ).getD 0 0 ≠ 0) ∧
    tomographyExtract (outerMat [1, Complex.I]) =
      ([1, Complex.I] : List ℂ).map (fun z => z *
        (conj (([1, Complex.I] : List ℂ).getD 0 0) /
          (Complex.abs (([1, Complex.I] : List ℂ).getD 0 0) : ℂ))) :=
  ⟨by simp, (hhl_tomography_extract_pure [1, Complex.I] (by simp)).1⟩

end HHLSpec

end
